import Mathlib

set_option maxHeartbeats 1000000

namespace RustZip

/-!
Shallow embedding of the RustZip compressor (src/src/compressor.rs,
src/src/main.rs, src/src/cli.rs).  The filesystem is modelled as an
association list from path strings to byte lists (newest entry first),
together with a list of directory paths and a list of locked paths
(paths at which File::create or a rename target fails, modelling
permission errors).  Wall-clock durations and progress-bar rendering
are not modelled; they do not affect any byte written to the
filesystem.  All definitions come first, followed by the theorems.
-/

/-- Split a character list at the last occurrence of the character c:
returns the part before and the part after that occurrence, or none if
c does not occur. -/
def splitLastChar (c : Char) : List Char → Option (List Char × List Char)
  | [] => none
  | a :: rest =>
    match splitLastChar c rest with
    | some (q, r) => some (a :: q, r)
    | none => if a = c then some ([], rest) else none

/-- Mirror of the Path components used by the source: the pair of the
directory part including a trailing slash and the file name part. -/
def fileDirSplit (p : String) : List Char × List Char :=
  match splitLastChar '/' p.data with
  | some (d, n) => (d ++ ['/'], n)
  | none => ([], p.data)

/-- Mirror of Path file_stem and extension on a file name: a file name
with a dot after a nonempty stem has an extension, otherwise none. -/
def stemExtSplit (name : List Char) : List Char × Option (List Char) :=
  match splitLastChar '.' name with
  | none => (name, none)
  | some ([], _) => (name, none)
  | some (s, e) => (s, some e)

/-- Mirror of Path with_extension and set_extension with a nonempty new
extension: replace the extension of the final component. -/
def withExtension (p : String) (e : String) : String :=
  ⟨(fileDirSplit p).1 ++ (stemExtSplit (fileDirSplit p).2).1 ++ '.' :: e.data⟩

/-- Mirror of the expression Path extension and_then to_str unwrap_or
of the empty string, as in the main.rs decompress dispatch. -/
def extOf (p : String) : String :=
  match (stemExtSplit (fileDirSplit p).2).2 with
  | some e => ⟨e⟩
  | none => ""

/-- Temp artifact path: set_extension to ext.part when the output path
has an extension, and to part when it has none (compressor.rs lines
141 to 147 and 244 to 250). -/
def tmp_path_of (p : String) : String :=
  match (stemExtSplit (fileDirSplit p).2).2 with
  | some e => withExtension p (String.mk e ++ ".part")
  | none => withExtension p "part"

/-- Mirror of Path join with a relative right-hand side. -/
def joinPath (a b : String) : String := a ++ "/" ++ b

/-- Mirror of Path file_name to_string_lossy. -/
def fileNameOf (p : String) : String := ⟨(fileDirSplit p).2⟩

/-- The directory part of a path, including the trailing slash when a
slash exists, empty otherwise; mirrors Path parent followed by join. -/
def dirOf (p : String) : String := ⟨(fileDirSplit p).1⟩

/-- Mirror of strip_prefix of the root followed by the path separator. -/
def relOf (root p : String) : String := ⟨p.data.drop (root.data.length + 1)⟩

/-! ## Filesystem model -/

structure FS where
  files : List (String × List Nat)
  dirs : List String
  locked : List String
deriving DecidableEq

def lookA : List (String × List Nat) → String → Option (List Nat)
  | [], _ => none
  | (k, v) :: rest, p => if k = p then some v else lookA rest p

def fsLookup (fs : FS) (p : String) : Option (List Nat) := lookA fs.files p

def fsWrite (fs : FS) (p : String) (v : List Nat) : FS :=
  ⟨(p, v) :: fs.files, fs.dirs, fs.locked⟩

def removeA : List (String × List Nat) → String → List (String × List Nat)
  | [], _ => []
  | (k, v) :: rest, p => if k = p then removeA rest p else (k, v) :: removeA rest p

def fsRemove (fs : FS) (p : String) : FS := ⟨removeA fs.files p, fs.dirs, fs.locked⟩

/-- Mirror of fs::rename: moves the content at src to dst, failing when
the destination is locked (permission error) or the source is absent. -/
def fsRename (fs : FS) (src dst : String) : Option FS :=
  match fsLookup fs src with
  | none => none
  | some v =>
    if fs.locked.contains dst then none
    else some (fsWrite (fsRemove fs src) dst v)

def fsIsFile (fs : FS) (p : String) : Bool := (fsLookup fs p).isSome

def fsIsDir (fs : FS) (p : String) : Bool := fs.dirs.contains p

/-! ## Codec model

The byte-level codecs (zstd, flate2, lz4_flex) are external crates.
Modelled from the spec: section 4.2 treats each codec as an opaque
capability with compress, decompress and a canonical extension tag,
satisfying the round-trip contract of section 8; a compress or
decompress error carries the bytes already written to the output
stream before the failure. -/

structure CodecModel where
  compress : Int → List Nat → Except (List Nat × String) (List Nat)
  decompress : List Nat → Except (List Nat × String) (List Nat)
  ext : String

/-- Modelled from the spec: the zstd codec external crate, as an opaque
lossless framing (one tag byte then the payload); the level is advisory
and does not affect losslessness. -/
def zstdC : CodecModel where
  compress := fun _level data => .ok (90 :: data)
  decompress := fun b =>
    match b with
    | 90 :: rest => .ok rest
    | _ => .error ([], "malformed zstd stream")
  ext := "zst"

/-- Modelled from the spec: the gzip codec external crate (flate2). -/
def gzipC : CodecModel where
  compress := fun _level data => .ok (71 :: data)
  decompress := fun b =>
    match b with
    | 71 :: rest => .ok rest
    | _ => .error ([], "malformed gzip stream")
  ext := "gz"

/-- Modelled from the spec: the lz4 codec external crate (lz4_flex);
the source ignores the level argument for this codec. -/
def lz4C : CodecModel where
  compress := fun _level data => .ok (52 :: data)
  decompress := fun b =>
    match b with
    | 52 :: rest => .ok rest
    | _ => .error ([], "malformed lz4 stream")
  ext := "lz4"

/-! ## Chunk sizer (compressor.rs lines 198 to 205) -/

/-- Mirror of choose_chunk_size: file_size divided by 64, clamped to
the range from 256 KiB to 4 MiB. -/
def choose_chunk_size (file_size : Nat) : Nat :=
  let minv := 256 * 1024
  let maxv := 4 * 1024 * 1024
  let chunk := file_size / 64
  if chunk < minv then minv else if chunk > maxv then maxv else chunk

/-! ## Digest model -/

def hexDigit (n : Nat) : Char := if n < 10 then Char.ofNat (48 + n) else Char.ofNat (87 + n)

def natToHex : Nat → Nat → List Char
  | 0, _ => []
  | w + 1, v => natToHex w (v / 16) ++ [hexDigit (v % 16)]

/-- Modelled from the spec: the SHA-256 digest primitive is the
external sha2 crate; modelled as a fixed deterministic digest function
over byte lists, rendered as a hex string of lowercase hex digits. -/
def sha256Hex (data : List Nat) : String :=
  ⟨natToHex 16 (data.foldl (fun a b => (a * 131 + b + 1) % (2 ^ 64)) 7)⟩

/-- Mirror of sha256_file (compressor.rs lines 214 to 224): stream the
file at the path through the hasher; fails when the file is absent. -/
def sha256_file (fs : FS) (p : String) : Option String :=
  (fsLookup fs p).map sha256Hex

/-- ASCII byte rendering of a string written to a file. -/
def strToBytes (s : String) : List Nat := s.data.map Char.toNat

def bytesToStr (l : List Nat) : String := ⟨l.map Char.ofNat⟩

/-- Number of newline bytes in a file, counting the lines of a
newline-terminated manifest. -/
def nlCount (l : List Nat) : Nat := (l.filter (fun b => b == 10)).length

/-! ## Single-file pipeline -/

structure Stats where
  original_size : Nat
  compressed_size : Nat
deriving DecidableEq

/-- Mirror of compress_single_file_with (compressor.rs lines 129 to
188): metadata and open of the input, create_dir_all of the parent
(modelled as always succeeding), creation of the .part temp artifact,
streaming compress into it, and the final rename.  The progress bar is
presentation only. -/
def compress_single_file_with (fs : FS) (input_path output_path : String)
    (level : Int) (c : CodecModel) : FS × Except String Stats :=
  match fsLookup fs input_path with
  | none => (fs, .error ("Failed to open " ++ input_path))
  | some content =>
    if fs.locked.contains (tmp_path_of output_path) then
      (fs, .error ("Failed to create " ++ tmp_path_of output_path))
    else
      match c.compress level content with
      | .error pe =>
        (fsWrite (fsWrite fs (tmp_path_of output_path) []) (tmp_path_of output_path) pe.1,
          .error pe.2)
      | .ok out =>
        match fsRename (fsWrite (fsWrite fs (tmp_path_of output_path) [])
            (tmp_path_of output_path) out) (tmp_path_of output_path) output_path with
        | none =>
          (fsWrite (fsWrite fs (tmp_path_of output_path) []) (tmp_path_of output_path) out,
            .error ("rename failed " ++ output_path))
        | some fs3 => (fs3, .ok ⟨content.length, out.length⟩)

/-- Mirror of compress_single_file (compressor.rs lines 226 to 309):
the streamed zstd-only variant; the chunk size drives buffer capacity
only and does not change the bytes produced. -/
def compress_single_file (fs : FS) (input_path output_path : String)
    (level : Int) : FS × Except String Stats :=
  match fsLookup fs input_path with
  | none => (fs, .error ("Failed to open " ++ input_path))
  | some content =>
    let _chunk := choose_chunk_size content.length
    if fs.locked.contains (tmp_path_of output_path) then
      (fs, .error ("Failed to create " ++ tmp_path_of output_path))
    else
      match zstdC.compress level content with
      | .error pe =>
        (fsWrite (fsWrite fs (tmp_path_of output_path) []) (tmp_path_of output_path) pe.1,
          .error pe.2)
      | .ok out =>
        match fsRename (fsWrite (fsWrite fs (tmp_path_of output_path) [])
            (tmp_path_of output_path) out) (tmp_path_of output_path) output_path with
        | none =>
          (fsWrite (fsWrite fs (tmp_path_of output_path) []) (tmp_path_of output_path) out,
            .error ("rename failed " ++ output_path))
        | some fs3 => (fs3, .ok ⟨content.length, out.length⟩)

/-- Mirror of decompress_file_with (compressor.rs lines 191 to 196):
open the input, create the output directly at the final path, stream
the codec decompress into it; no temp artifact and no rename. -/
def decompress_file_with (fs : FS) (input_path output_path : String)
    (c : CodecModel) : FS × Except String Unit :=
  match fsLookup fs input_path with
  | none => (fs, .error ("Failed to open " ++ input_path))
  | some content =>
    if fs.locked.contains output_path then
      (fs, .error ("Failed to create " ++ output_path))
    else
      match c.decompress content with
      | .error pe => (fsWrite (fsWrite fs output_path []) output_path pe.1, .error pe.2)
      | .ok out => (fsWrite (fsWrite fs output_path []) output_path out, .ok ())

/-! ## Manifest model (BTreeMap of path to digest, compressor.rs) -/

def mlookup : List (String × String) → String → Option String
  | [], _ => none
  | (k, v) :: rest, q => if k = q then some v else mlookup rest q

/-- Lexicographic strict order on character lists by code point,
matching the byte-wise Ord that BTreeMap uses for UTF-8 string keys. -/
def ltChars : List Char → List Char → Bool
  | [], [] => false
  | [], _ :: _ => true
  | _ :: _, [] => false
  | a :: as, b :: bs =>
    if a.toNat < b.toNat then true
    else if b.toNat < a.toNat then false
    else ltChars as bs

def strLt (a b : String) : Bool := ltChars a.data b.data

/-- Mirror of BTreeMap insert: keep the association list sorted by key,
replacing the value on an equal key. -/
def minsert (k : String) (v : String) : List (String × String) → List (String × String)
  | [] => [(k, v)]
  | (k1, v1) :: rest =>
    if strLt k k1 then (k, v) :: (k1, v1) :: rest
    else if k = k1 then (k, v) :: rest
    else (k1, v1) :: minsert k v rest

/-- Mirror of the manifest write loop (compressor.rs lines 386 to 388):
one line per entry, digest, two spaces, path, newline, in key order. -/
def renderManifest : List (String × String) → String
  | [] => ""
  | (file, hash) :: rest => hash ++ "  " ++ file ++ "\n" ++ renderManifest rest

/-- Folding a sequence of inserts into an empty map, as the tree loop
does. -/
def buildManifest (l : List (String × String)) : List (String × String) :=
  l.foldl (fun m kv => minsert kv.1 kv.2 m) []

/-! ## Tree walk and tree compression -/

def underRoot (root p : String) : Bool := (root ++ "/").data.isPrefixOf p.data

/-- Mirror of the WalkDir collection loop: every regular file below the
root, in a fixed traversal order. -/
def walkFiles (fs : FS) (root : String) : List String :=
  (fs.files.map Prod.fst).filter (fun p => underRoot root p)

/-- Mirror of the per-file loop of compress_path (compressor.rs lines
361 to 378): sequential fold over the walked files, compressing each,
hashing the produced output and inserting into the manifest map; a
failure of any file stops the loop at once. -/
def processFiles (input output : String) (level : Int) :
    FS → List String → List (String × String) →
    FS × List (String × String) × Except String Unit
  | fs, [], m => (fs, m, .ok ())
  | fs, file :: rest, m =>
    match compress_single_file fs file
        (withExtension (joinPath output (relOf input file)) "zst") level with
    | (fs1, .error e) => (fs1, m, .error e)
    | (fs1, .ok _stats) =>
      match sha256_file fs1 (withExtension (joinPath output (relOf input file)) "zst") with
      | none =>
        (fs1, m, .error ("Failed to open " ++
          withExtension (joinPath output (relOf input file)) "zst"))
      | some h =>
        processFiles input output level fs1 rest
          (minsert (withExtension (relOf input file) "zst") h m)

/-- Mirror of the verification loop of compress_path (compressor.rs
lines 412 to 423): recompute the digest of every manifest entry under
the output root and compare. -/
def verifyEntries (output : String) (fs : FS) : List (String × String) → Except String Unit
  | [] => .ok ()
  | (file, expected) :: rest =>
    match sha256_file fs (joinPath output file) with
    | none => .error ("Failed to open " ++ joinPath output file)
    | some actual =>
      if actual = expected then verifyEntries output fs rest
      else .error ("Hash mismatch for " ++ file)

/-- The output path chosen by both tree compressors in single-file
mode: when the configured output is a directory, join it with the
input base name carrying the codec extension, else use it verbatim. -/
def singleOutPath (fs : FS) (input_path output_path ext : String) : String :=
  if fsIsDir fs output_path then
    joinPath output_path (withExtension (fileNameOf input_path) ext)
  else output_path

/-- Mirror of compress_path (compressor.rs lines 311 to 426): the
zstd-only tree compressor with SHA-256 manifest.  The thread count is
fed to the global rayon pool builder whose outcome is discarded via ok
and whose pool is never used (the file loop is sequential), so it has
no observable effect. -/
def compress_path (fs : FS) (input_path output_path : String)
    (_threads : Nat) (level : Int) : FS × Except String Unit :=
  if fsIsFile fs input_path then
    match compress_single_file fs input_path
        (singleOutPath fs input_path output_path "zst") level with
    | (fs1, .error e) => (fs1, .error e)
    | (fs1, .ok _stats) =>
      match sha256_file fs1 (singleOutPath fs input_path output_path "zst") with
      | none =>
        (fs1, .error ("Failed to open " ++ singleOutPath fs input_path output_path "zst"))
      | some h =>
        (fs1, verifyEntries output_path fs1
          (minsert (fileNameOf (singleOutPath fs input_path output_path "zst")) h []))
  else if fsIsDir fs input_path then
    match processFiles input_path output_path level fs (walkFiles fs input_path) [] with
    | (fs1, _m, .error e) => (fs1, .error e)
    | (fs1, m, .ok _u) =>
      if fs1.locked.contains (joinPath output_path "manifest-sha256.txt") then
        (fs1, .error ("Failed to create " ++ joinPath output_path "manifest-sha256.txt"))
      else
        (fsWrite fs1 (joinPath output_path "manifest-sha256.txt")
            (strToBytes (renderManifest m)),
          verifyEntries output_path
            (fsWrite fs1 (joinPath output_path "manifest-sha256.txt")
              (strToBytes (renderManifest m))) m)
  else (fs, .error "Input path is not a file or directory")

/-- Mirror of the per-file loop of compress_path_with (compressor.rs
lines 115 to 120): sequential fold over the walked files; after each
file the progress bar increment re-reads the metadata of the input
file, whose failure propagates. -/
def processFilesWith (input output : String) (level : Int) (c : CodecModel) :
    FS → List String → FS × Except String Unit
  | fs, [] => (fs, .ok ())
  | fs, file :: rest =>
    match compress_single_file_with fs file
        (withExtension (joinPath output (relOf input file)) c.ext) level c with
    | (fs1, .error e) => (fs1, .error e)
    | (fs1, .ok _stats) =>
      match fsLookup fs1 file with
      | none => (fs1, .error ("metadata failed " ++ file))
      | some _len => processFilesWith input output level c fs1 rest

/-- Mirror of compress_path_with (compressor.rs lines 82 to 126): the
codec-generic tree compressor.  It writes no manifest.  The thread
count is fed to the global rayon pool builder whose outcome is
discarded via ok and whose pool is never used, so it has no observable
effect. -/
def compress_path_with (fs : FS) (input_path output_path : String)
    (_threads : Nat) (level : Int) (c : CodecModel) : FS × Except String Unit :=
  if fsIsFile fs input_path then
    match compress_single_file_with fs input_path
        (singleOutPath fs input_path output_path c.ext) level c with
    | (fs1, .error e) => (fs1, .error e)
    | (fs1, .ok _stats) => (fs1, .ok ())
  else if fsIsDir fs input_path then
    processFilesWith input_path output_path level c fs (walkFiles fs input_path)
  else (fs, .error "Input path is not a file or directory")

/-! ## Decompression with manifest check (compressor.rs lines 428 to 501) -/

def splitOnChar (c : Char) : List Char → List (List Char)
  | [] => [[]]
  | a :: rest =>
    let r := splitOnChar c rest
    if a = c then [] :: r
    else
      match r with
      | [] => [[a]]
      | g :: gs => (a :: g) :: gs

/-- Mirror of str lines: split on newline, dropping the trailing empty
segment produced by a terminating newline. -/
def linesOf (s : String) : List String :=
  let segs := splitOnChar '\n' s.data
  let segs2 :=
    match segs.reverse with
    | [] :: rest => rest.reverse
    | _ => segs
  segs2.map fun l => ⟨l⟩

/-- Mirror of split_whitespace on manifest lines (which contain only
space characters as whitespace): maximal runs of non-space characters. -/
def wordsOf (s : String) : List String :=
  ((splitOnChar ' ' s.data).filter (fun l => !l.isEmpty)).map fun l => ⟨l⟩

/-- Mirror of the manifest verification loop inside decompress_file:
for each manifest line whose file field equals the output file name,
compare the recorded digest with the digest of the decompressed bytes. -/
def checkLines (outName : String) (digest : String) : List String → Except String Unit
  | [] => .ok ()
  | line :: rest =>
    match wordsOf line with
    | hash :: file :: _ =>
      if outName = file then
        if digest = hash then checkLines outName digest rest
        else .error "Decompressed file hash mismatch"
      else checkLines outName digest rest
    | _ => checkLines outName digest rest

/-- Mirror of decompress_file (compressor.rs lines 428 to 501): open
the input; Decoder::new performs no I/O, so it cannot fail on stream
content; create the output directly at the final path; then io::copy
streams the decode into it, and a malformed stream errors only here,
after the creation, leaving the bytes already written at the final
path; on success, verify against a manifest file next to the input
when one is present. -/
def decompress_file (fs : FS) (input_path output_path : String) : FS × Except String Unit :=
  match fsLookup fs input_path with
  | none => (fs, .error ("Failed to open " ++ input_path))
  | some content =>
    if fs.locked.contains output_path then
      (fs, .error ("Failed to create " ++ output_path))
    else
      match zstdC.decompress content with
      | .error pe => (fsWrite (fsWrite fs output_path []) output_path pe.1, .error pe.2)
      | .ok dec =>
        match fsLookup (fsWrite (fsWrite fs output_path []) output_path dec)
            (dirOf input_path ++ "manifest-sha256.txt") with
        | none => (fsWrite (fsWrite fs output_path []) output_path dec, .ok ())
        | some mbytes =>
          (fsWrite (fsWrite fs output_path []) output_path dec,
            checkLines (fileNameOf output_path) (sha256Hex dec)
              (linesOf (bytesToStr mbytes)))

/-! ## CLI dispatch (main.rs) -/

/-- Mirror of str to_lowercase on ASCII format tags. -/
def toLowerStr (s : String) : String := ⟨s.data.map Char.toLower⟩

def pickByTag (tag : String) : Option CodecModel :=
  if tag = "zst" then some zstdC
  else if tag = "gz" then some gzipC
  else if tag = "lz4" then some lz4C
  else none

/-- Mirror of the Compress arm of main (main.rs lines 13 to 22): the
format tag is lowercased and matched against the closed set before any
filesystem work starts. -/
def mainCompress (fs : FS) (input output : String) (threads : Nat) (level : Int)
    (format : String) : FS × Except String Unit :=
  match pickByTag (toLowerStr format) with
  | none => (fs, .error ("Unknown format: " ++ toLowerStr format))
  | some c => compress_path_with fs input output threads level c

/-- Mirror of the Decompress arm of main (main.rs lines 23 to 32): the
input extension is matched (without lowercasing) against the closed set
before any filesystem work starts. -/
def mainDecompress (fs : FS) (input output : String) : FS × Except String Unit :=
  match pickByTag (extOf input) with
  | none => (fs, .error ("Unknown file extension: " ++ extOf input))
  | some c => decompress_file_with fs input output c

/-! # Theorems -/

/-! ## Path lemmas -/

theorem splitLastChar_eq (c : Char) :
    ∀ (l q r : List Char), splitLastChar c l = some (q, r) → l = q ++ c :: r := by
  intro l
  induction l with
  | nil => intro q r h; simp [splitLastChar] at h
  | cons a rest ih =>
    intro q r h
    simp only [splitLastChar] at h
    cases hrec : splitLastChar c rest with
    | some pr =>
      obtain ⟨q0, r0⟩ := pr
      rw [hrec] at h
      injection h with h1
      injection h1 with hq hr
      subst hq; subst hr
      have := ih q0 r0 hrec
      simp [this]
    | none =>
      rw [hrec] at h
      by_cases hac : a = c
      · rw [if_pos hac] at h
        injection h with h1
        injection h1 with hq hr
        subst hq; subst hr
        simp [hac]
      · rw [if_neg hac] at h
        exact absurd h (by simp)

theorem fileDirSplit_eq (p : String) :
    p.data = (fileDirSplit p).1 ++ (fileDirSplit p).2 := by
  unfold fileDirSplit
  cases h : splitLastChar '/' p.data with
  | none => simp
  | some dn =>
    obtain ⟨d, n⟩ := dn
    have := splitLastChar_eq '/' p.data d n h
    simp [this]

theorem stemExtSplit_some (name s e : List Char)
    (h : stemExtSplit name = (s, some e)) : name = s ++ '.' :: e := by
  unfold stemExtSplit at h
  cases hs : splitLastChar '.' name with
  | none => rw [hs] at h; simp at h
  | some pr =>
    obtain ⟨q, r⟩ := pr
    have hqr := splitLastChar_eq '.' name q r hs
    rw [hs] at h
    cases q with
    | nil => simp at h
    | cons x xs =>
      simp only [Prod.mk.injEq, Option.some.injEq] at h
      obtain ⟨h1, h2⟩ := h
      subst h1; subst h2
      exact hqr

theorem stemExtSplit_none (name : List Char)
    (hn : (stemExtSplit name).2 = none) : (stemExtSplit name).1 = name := by
  unfold stemExtSplit at hn ⊢
  cases hs : splitLastChar '.' name with
  | none => rfl
  | some pr =>
    obtain ⟨q, r⟩ := pr
    rw [hs] at hn
    cases q with
    | nil => rfl
    | cons x xs => simp at hn

theorem withExtension_data (p e : String) :
    (withExtension p e).data =
      (fileDirSplit p).1 ++ (stemExtSplit (fileDirSplit p).2).1 ++ '.' :: e.data := rfl

theorem strData_append (a b : String) : (a ++ b).data = a.data ++ b.data := rfl

theorem tmp_path_of_eq (p : String) : tmp_path_of p = p ++ ".part" := by
  apply String.ext
  unfold tmp_path_of
  cases h : (stemExtSplit (fileDirSplit p).2).2 with
  | none =>
    have hstem := stemExtSplit_none (fileDirSplit p).2 h
    show (withExtension p "part").data = (p ++ ".part").data
    rw [strData_append, withExtension_data, hstem]
    conv_rhs => rw [fileDirSplit_eq p]
  | some e =>
    have hsplit : stemExtSplit (fileDirSplit p).2 =
        ((stemExtSplit (fileDirSplit p).2).1, some e) := by
      rw [← h]
    have hstem := stemExtSplit_some (fileDirSplit p).2 _ e hsplit
    show (withExtension p (String.mk e ++ ".part")).data = (p ++ ".part").data
    rw [strData_append, withExtension_data]
    conv_rhs => rw [fileDirSplit_eq p, hstem]
    have hdata : (String.mk e ++ ".part").data = e ++ ".part".data := rfl
    rw [hdata]
    simp [List.append_assoc, List.cons_append]

theorem tmp_path_of_ne (p : String) : tmp_path_of p ≠ p := by
  rw [tmp_path_of_eq]
  intro h
  have := congrArg (fun s => s.data.length) h
  simp [strData_append] at this

/-! ## Filesystem lemmas -/

theorem fsLookup_write (fs : FS) (p q : String) (v : List Nat) :
    fsLookup (fsWrite fs p v) q = if p = q then some v else fsLookup fs q := rfl

theorem lookA_removeA (p q : String) :
    ∀ l, lookA (removeA l p) q = if p = q then none else lookA l q := by
  intro l
  induction l with
  | nil => simp [removeA, lookA]
  | cons kv rest ih =>
    obtain ⟨k, v⟩ := kv
    by_cases hk : k = p
    · subst hk
      by_cases hq : k = q
      · subst hq
        simp [removeA, lookA, ih]
      · simp [removeA, lookA, hq, ih]
    · by_cases hq : k = q
      · subst hq
        have hpq : ¬ p = k := fun h => hk h.symm
        simp [removeA, hk, lookA, hpq]
      · simp [removeA, hk, lookA, hq, ih]

theorem fsLookup_remove (fs : FS) (p q : String) :
    fsLookup (fsRemove fs p) q = if p = q then none else fsLookup fs q :=
  lookA_removeA p q fs.files

/-! ## C7: chunk sizer -/

/-- C7: for every non-negative file byte length n, choose_chunk_size n
equals n / 64 clamped to the range from 262144 to 4194304, and the
result always lies within that range inclusive; the function is a pure
total function with no failure mode. -/
theorem C7_choose_chunk_size (n : Nat) :
    choose_chunk_size n = Nat.max 262144 (Nat.min (n / 64) 4194304) ∧
    262144 ≤ choose_chunk_size n ∧ choose_chunk_size n ≤ 4194304 := by
  have h : choose_chunk_size n =
      if n / 64 < 262144 then 262144
      else if n / 64 > 4194304 then 4194304 else n / 64 := rfl
  rw [h]
  by_cases h1 : n / 64 < 262144
  · rw [if_pos h1]
    have hmin : Nat.min (n / 64) 4194304 = n / 64 := min_eq_left (by omega)
    have hmax : Nat.max 262144 (n / 64) = 262144 := max_eq_left (by omega)
    rw [hmin, hmax]
    exact ⟨rfl, le_refl _, by omega⟩
  · rw [if_neg h1]
    by_cases h2 : n / 64 > 4194304
    · rw [if_pos h2]
      have hmin : Nat.min (n / 64) 4194304 = 4194304 := min_eq_right (by omega)
      have hmax : Nat.max 262144 4194304 = 4194304 := max_eq_right (by omega)
      rw [hmin, hmax]
      exact ⟨rfl, by omega, le_refl _⟩
    · rw [if_neg h2]
      have hmin : Nat.min (n / 64) 4194304 = n / 64 := min_eq_left (by omega)
      have hmax : Nat.max 262144 (n / 64) = n / 64 := max_eq_right (by omega)
      rw [hmin, hmax]
      exact ⟨rfl, by omega, by omega⟩

/-! ## C1: codec round trip -/

/-- C1: for every byte sequence (including the empty sequence and non
UTF-8 content) and each of the three supported codecs, compress at any
level followed by decompress yields the original sequence (codecs
modelled from the spec contract, sections 4.2 and 8). -/
theorem C1_codec_roundtrip (level : Int) (data : List Nat) :
    Except.bind (zstdC.compress level data) zstdC.decompress = Except.ok data ∧
    Except.bind (gzipC.compress level data) gzipC.decompress = Except.ok data ∧
    Except.bind (lz4C.compress level data) lz4C.decompress = Except.ok data :=
  ⟨rfl, rfl, rfl⟩

/-! ## Single-file pipeline lemmas -/

theorem compress_single_file_eq (fs : FS) (i o : String) (lvl : Int) :
    compress_single_file fs i o lvl = compress_single_file_with fs i o lvl zstdC := rfl

theorem fsRename_some (fs : FS) (src dst : String) (fs2 : FS)
    (h : fsRename fs src dst = some fs2) :
    ∃ v, fsLookup fs src = some v ∧ fs.locked.contains dst = false ∧
      fs2 = fsWrite (fsRemove fs src) dst v := by
  unfold fsRename at h
  split at h
  · exact absurd h (by simp)
  · next v hv =>
    split at h
    · exact absurd h (by simp)
    · next hl =>
      injection h with h1
      exact ⟨v, hv, by simpa using hl, h1.symm⟩

theorem csfw_error_frame (c : CodecModel) (fs : FS) (i o : String) (lvl : Int)
    (fs1 : FS) (e : String)
    (h : compress_single_file_with fs i o lvl c = (fs1, .error e)) :
    fsLookup fs1 o = fsLookup fs o ∧
    (∀ p, p ≠ tmp_path_of o → fsLookup fs1 p = fsLookup fs p) ∧
    ((fsLookup fs1 (tmp_path_of o)).isSome = true ∨
      fsLookup fs1 (tmp_path_of o) = fsLookup fs (tmp_path_of o)) := by
  have hto : tmp_path_of o ≠ o := tmp_path_of_ne o
  unfold compress_single_file_with at h
  split at h
  · injection h with h1 _h2
    subst h1
    exact ⟨rfl, fun p _ => rfl, Or.inr rfl⟩
  · split at h
    · injection h with h1 _h2
      subst h1
      exact ⟨rfl, fun p _ => rfl, Or.inr rfl⟩
    · split at h
      · injection h with h1 _h2
        subst h1
        refine ⟨?_, ?_, Or.inl ?_⟩
        · rw [fsLookup_write, if_neg hto, fsLookup_write, if_neg hto]
        · intro p hp
          have hp2 : tmp_path_of o ≠ p := fun hh => hp hh.symm
          rw [fsLookup_write, if_neg hp2, fsLookup_write, if_neg hp2]
        · rw [fsLookup_write, if_pos rfl]
          rfl
      · split at h
        · injection h with h1 _h2
          subst h1
          refine ⟨?_, ?_, Or.inl ?_⟩
          · rw [fsLookup_write, if_neg hto, fsLookup_write, if_neg hto]
          · intro p hp
            have hp2 : tmp_path_of o ≠ p := fun hh => hp hh.symm
            rw [fsLookup_write, if_neg hp2, fsLookup_write, if_neg hp2]
          · rw [fsLookup_write, if_pos rfl]
            rfl
        · injection h with _h1 h2
          simp at h2

theorem csfw_frame (c : CodecModel) (fs : FS) (i o : String) (lvl : Int)
    (p : String) (hp1 : p ≠ tmp_path_of o) (hp2 : p ≠ o) :
    fsLookup (compress_single_file_with fs i o lvl c).1 p = fsLookup fs p := by
  have h1 : tmp_path_of o ≠ p := fun hh => hp1 hh.symm
  have h2 : o ≠ p := fun hh => hp2 hh.symm
  unfold compress_single_file_with
  split
  · rfl
  · split
    · rfl
    · split
      · simp [fsLookup_write, h1]
      · split
        · simp [fsLookup_write, h1]
        · next fs3 hren =>
          obtain ⟨v, hv, hl, hfs3⟩ := fsRename_some _ _ _ _ hren
          subst hfs3
          simp [fsLookup_write, fsLookup_remove, h1, h2]

theorem csfw_state (c : CodecModel) (fs : FS) (i o : String) (lvl : Int) :
    (compress_single_file_with fs i o lvl c).1.locked = fs.locked ∧
    (compress_single_file_with fs i o lvl c).1.dirs = fs.dirs := by
  unfold compress_single_file_with
  split
  · exact ⟨rfl, rfl⟩
  · split
    · exact ⟨rfl, rfl⟩
    · split
      · exact ⟨rfl, rfl⟩
      · split
        · exact ⟨rfl, rfl⟩
        · next fs3 hren =>
          obtain ⟨v, hv, hl, hfs3⟩ := fsRename_some _ _ _ _ hren
          subst hfs3
          exact ⟨rfl, rfl⟩

theorem csfw_ok (c : CodecModel) (fs : FS) (i o : String) (lvl : Int)
    (fs1 : FS) (st : Stats)
    (h : compress_single_file_with fs i o lvl c = (fs1, .ok st)) :
    ∃ content out, fsLookup fs i = some content ∧ c.compress lvl content = .ok out ∧
      fsLookup fs1 o = some out ∧ st = ⟨content.length, out.length⟩ := by
  unfold compress_single_file_with at h
  split at h
  · injection h with _h1 h2
    simp at h2
  · next content hin =>
    split at h
    · injection h with _h1 h2
      simp at h2
    · split at h
      · injection h with _h1 h2
        simp at h2
      · next out hc =>
        split at h
        · injection h with _h1 h2
          simp at h2
        · next fs3 hren =>
          injection h with h1 h2
          obtain ⟨v, hv, hl, hfs3⟩ := fsRename_some _ _ _ _ hren
          rw [fsLookup_write, if_pos rfl] at hv
          injection hv with hv2
          injection h2 with h3
          subst h1
          subst hfs3
          refine ⟨content, out, hin, hc, ?_, h3.symm⟩
          rw [fsLookup_write, if_pos rfl, hv2]

/-! ## C2: single-file atomicity on failure -/

/-- C2: if compress_single_file_with or compress_single_file fails (at
any step, the rename included), the function returns an error, no file
at the final output path is created or altered, every path other than
the .part temp artifact is untouched, and the temp artifact is either
present (left in place, never cleaned up) or was never created. -/
theorem C2_single_file_atomic_on_failure :
    (∀ (c : CodecModel) (fs : FS) (i o : String) (lvl : Int) (fs1 : FS) (e : String),
      compress_single_file_with fs i o lvl c = (fs1, .error e) →
      fsLookup fs1 o = fsLookup fs o ∧
      (∀ p, p ≠ tmp_path_of o → fsLookup fs1 p = fsLookup fs p) ∧
      ((fsLookup fs1 (tmp_path_of o)).isSome = true ∨
        fsLookup fs1 (tmp_path_of o) = fsLookup fs (tmp_path_of o))) ∧
    (∀ (fs : FS) (i o : String) (lvl : Int) (fs1 : FS) (e : String),
      compress_single_file fs i o lvl = (fs1, .error e) →
      fsLookup fs1 o = fsLookup fs o ∧
      (∀ p, p ≠ tmp_path_of o → fsLookup fs1 p = fsLookup fs p) ∧
      ((fsLookup fs1 (tmp_path_of o)).isSome = true ∨
        fsLookup fs1 (tmp_path_of o) = fsLookup fs (tmp_path_of o))) := by
  constructor
  · intro c fs i o lvl fs1 e h
    exact csfw_error_frame c fs i o lvl fs1 e h
  · intro fs i o lvl fs1 e h
    rw [compress_single_file_eq] at h
    exact csfw_error_frame zstdC fs i o lvl fs1 e h

/-- C2 witness: the theorem applied to two concrete failing runs: an
absent input for compress_single_file_with, and a locked temp path for
compress_single_file. -/
theorem C2_single_file_atomic_on_failure_witness :
    fsLookup (compress_single_file_with ⟨[], [], []⟩ "a" "b" 3 zstdC).1 "b" =
      fsLookup (⟨[], [], []⟩ : FS) "b" ∧
    fsLookup (compress_single_file ⟨[("a", [1])], [], ["b.part"]⟩ "a" "b" 3).1 "b" =
      fsLookup (⟨[("a", [1])], [], ["b.part"]⟩ : FS) "b" :=
  ⟨(C2_single_file_atomic_on_failure.1 zstdC ⟨[], [], []⟩ "a" "b" 3 ⟨[], [], []⟩
      ("Failed to open " ++ "a") rfl).1,
   (C2_single_file_atomic_on_failure.2 ⟨[("a", [1])], [], ["b.part"]⟩ "a" "b" 3
      ⟨[("a", [1])], [], ["b.part"]⟩ ("Failed to create " ++ tmp_path_of "b") rfl).1⟩

/-! ## C6: decompression publication protocol -/

/-- C6 counterexample: on malformed input, decompress_file_with returns
an error and yet a file at the final output path has been created where
none existed before: File::create runs directly on the final path
before any decoding, so there is no temp artifact and no rename. -/
theorem C6_counterexample :
    (decompress_file_with ⟨[("x.zst", [99])], [], []⟩ "x.zst" "y" zstdC).2 =
      Except.error "malformed zstd stream" ∧
    fsLookup (decompress_file_with ⟨[("x.zst", [99])], [], []⟩ "x.zst" "y" zstdC).1 "y" =
      some [] ∧
    fsLookup (⟨[("x.zst", [99])], [], []⟩ : FS) "y" = none :=
  ⟨rfl, rfl, rfl⟩

/-- C6 amended: decompress_file_with and decompress_file write
directly at the final output path: no temp artifact is used and no
rename happens, every path other than the final output path is left
untouched, on success the final path holds exactly the decoded bytes,
and a decode failure after the output file has been created leaves a
file at the final output path holding the bytes written so far. -/
theorem C6_decompress_direct_write :
    (∀ (fs : FS) (i o : String) (c : CodecModel),
      (∀ p, p ≠ o → fsLookup (decompress_file_with fs i o c).1 p = fsLookup fs p) ∧
      (∀ (enc dec : List Nat), fsLookup fs i = some enc → c.decompress enc = .ok dec →
        fs.locked.contains o = false →
        fsLookup (decompress_file_with fs i o c).1 o = some dec ∧
        (decompress_file_with fs i o c).2 = .ok ()) ∧
      (∀ (enc : List Nat) (pe : List Nat × String),
        fsLookup fs i = some enc → c.decompress enc = .error pe →
        fs.locked.contains o = false →
        fsLookup (decompress_file_with fs i o c).1 o = some pe.1 ∧
        (decompress_file_with fs i o c).2 = .error pe.2)) ∧
    (∀ (fs : FS) (i o : String),
      (∀ p, p ≠ o → fsLookup (decompress_file fs i o).1 p = fsLookup fs p) ∧
      (∀ (enc dec : List Nat), fsLookup fs i = some enc → zstdC.decompress enc = .ok dec →
        fs.locked.contains o = false →
        fsLookup (decompress_file fs i o).1 o = some dec) ∧
      (∀ (enc : List Nat) (pe : List Nat × String),
        fsLookup fs i = some enc → zstdC.decompress enc = .error pe →
        fs.locked.contains o = false →
        fsLookup (decompress_file fs i o).1 o = some pe.1 ∧
        (decompress_file fs i o).2 = .error pe.2)) := by
  constructor
  · intro fs i o c
    refine ⟨?_, ?_, ?_⟩
    · intro p hp
      have hne : o ≠ p := fun hh => hp hh.symm
      unfold decompress_file_with
      split
      · rfl
      · split
        · rfl
        · split
          · simp [fsLookup_write, hne]
          · simp [fsLookup_write, hne]
    · intro enc dec henc hdec hlock
      unfold decompress_file_with
      rw [henc]
      simp only [hlock, Bool.false_eq_true, if_false, hdec]
      constructor
      · rw [fsLookup_write, if_pos rfl]
      · trivial
    · intro enc pe henc hdec hlock
      unfold decompress_file_with
      rw [henc]
      simp only [hlock, Bool.false_eq_true, if_false, hdec]
      constructor
      · rw [fsLookup_write, if_pos rfl]
      · trivial
  · intro fs i o
    refine ⟨?_, ?_, ?_⟩
    · intro p hp
      have hne : o ≠ p := fun hh => hp hh.symm
      unfold decompress_file
      split
      · rfl
      · split
        · rfl
        · split
          · simp [fsLookup_write, hne]
          · split
            · simp [fsLookup_write, hne]
            · simp [fsLookup_write, hne]
    · intro enc dec henc hdec hlock
      unfold decompress_file
      rw [henc]
      simp only [hlock, Bool.false_eq_true, if_false, hdec]
      split
      · show fsLookup (fsWrite (fsWrite fs o []) o dec) o = some dec
        rw [fsLookup_write, if_pos rfl]
      · show fsLookup (fsWrite (fsWrite fs o []) o dec) o = some dec
        rw [fsLookup_write, if_pos rfl]
    · intro enc pe henc hdec hlock
      unfold decompress_file
      rw [henc]
      simp only [hlock, Bool.false_eq_true, if_false, hdec]
      constructor
      · rw [fsLookup_write, if_pos rfl]
      · trivial

/-- C6 witness: the amended theorem applied to a concrete successful
decompression with a distinct untouched path, and to a concrete
malformed input for which both functions leave a created file at the
final output path while returning an error. -/
theorem C6_decompress_direct_write_witness :
    fsLookup (decompress_file_with ⟨[("x.zst", [90, 97])], [], []⟩ "x.zst" "y" zstdC).1
      "z" = fsLookup (⟨[("x.zst", [90, 97])], [], []⟩ : FS) "z" ∧
    fsLookup (decompress_file_with ⟨[("x.zst", [90, 97])], [], []⟩ "x.zst" "y" zstdC).1
      "y" = some [97] ∧
    fsLookup (decompress_file ⟨[("x.zst", [99])], [], []⟩ "x.zst" "y").1 "y"
      = some (([], "malformed zstd stream") : List Nat × String).1 ∧
    (decompress_file ⟨[("x.zst", [99])], [], []⟩ "x.zst" "y").2
      = .error (([], "malformed zstd stream") : List Nat × String).2 :=
  ⟨((C6_decompress_direct_write.1 ⟨[("x.zst", [90, 97])], [], []⟩ "x.zst" "y" zstdC).1
      "z" (by decide)),
   ((C6_decompress_direct_write.1 ⟨[("x.zst", [90, 97])], [], []⟩ "x.zst" "y" zstdC).2.1
      [90, 97] [97] rfl rfl rfl).1,
   ((C6_decompress_direct_write.2 ⟨[("x.zst", [99])], [], []⟩ "x.zst" "y").2.2
      [99] (([], "malformed zstd stream") : List Nat × String) rfl rfl rfl).1,
   ((C6_decompress_direct_write.2 ⟨[("x.zst", [99])], [], []⟩ "x.zst" "y").2.2
      [99] (([], "malformed zstd stream") : List Nat × String) rfl rfl rfl).2⟩

/-! ## C8: codec selection -/

/-- C8: a compression format tag outside the closed set (after
lowercasing), or a decompression input extension outside that set, is
rejected before any filesystem work: the dispatch returns the unknown
format or extension error with the filesystem untouched. -/
theorem C8_unknown_codec_rejected :
    (∀ (fs : FS) (i o : String) (t : Nat) (lvl : Int) (format : String),
      toLowerStr format ≠ "zst" → toLowerStr format ≠ "gz" → toLowerStr format ≠ "lz4" →
      mainCompress fs i o t lvl format =
        (fs, .error ("Unknown format: " ++ toLowerStr format))) ∧
    (∀ (fs : FS) (i o : String),
      extOf i ≠ "zst" → extOf i ≠ "gz" → extOf i ≠ "lz4" →
      mainDecompress fs i o = (fs, .error ("Unknown file extension: " ++ extOf i))) := by
  constructor
  · intro fs i o t lvl format h1 h2 h3
    unfold mainCompress pickByTag
    rw [if_neg h1, if_neg h2, if_neg h3]
  · intro fs i o h1 h2 h3
    unfold mainDecompress pickByTag
    rw [if_neg h1, if_neg h2, if_neg h3]

/-- C8 witness: the theorem applied to the concrete unknown tag xz and
the concrete unknown extension rar. -/
theorem C8_unknown_codec_rejected_witness :
    mainCompress ⟨[], [], []⟩ "a" "b" 4 3 "xz" =
      (⟨[], [], []⟩, .error ("Unknown format: " ++ toLowerStr "xz")) ∧
    mainDecompress ⟨[], [], []⟩ "a.rar" "b" =
      (⟨[], [], []⟩, .error ("Unknown file extension: " ++ extOf "a.rar")) :=
  ⟨C8_unknown_codec_rejected.1 ⟨[], [], []⟩ "a" "b" 4 3 "xz"
      (by decide) (by decide) (by decide),
   C8_unknown_codec_rejected.2 ⟨[], [], []⟩ "a.rar" "b"
      (by decide) (by decide) (by decide)⟩

/-! ## C9: worker count validation -/

/-- C9 counterexample: a worker count of zero supplied to
compress_path_with is not rejected: the run succeeds and produces the
compressed output (the pool builder outcome is discarded via ok, and
negative counts are unrepresentable in the unsigned threads type). -/
theorem C9_counterexample :
    (compress_path_with ⟨[("in.txt", [97])], [], []⟩ "in.txt" "out.zst" 0 3 zstdC).2 =
      Except.ok () ∧
    fsLookup (compress_path_with ⟨[("in.txt", [97])], [], []⟩ "in.txt" "out.zst" 0 3
      zstdC).1 "out.zst" = some [90, 97] :=
  ⟨rfl, rfl⟩

/-- C9 amended: the threads argument of compress_path_with is not
validated: zero is forwarded to the global pool builder whose outcome
the source discards, and the run behaves identically to any other
worker count, producing its normal output rather than failing. -/
theorem C9_zero_threads_accepted (fs : FS) (i o : String) (lvl : Int)
    (c : CodecModel) (t : Nat) :
    compress_path_with fs i o 0 lvl c = compress_path_with fs i o t lvl c := rfl

/-! ## C10: thread-count obliviousness and sequential processing -/

/-- C10: for a fixed input tree, output path, level and codec, the
outcome of compress_path_with (and of compress_path) is identical for
every value of the threads argument, and in directory mode the files
are processed strictly sequentially in the order produced by the
directory walk. -/
theorem C10_thread_oblivious_sequential :
    (∀ (fs : FS) (i o : String) (t1 t2 : Nat) (lvl : Int) (c : CodecModel),
      compress_path_with fs i o t1 lvl c = compress_path_with fs i o t2 lvl c) ∧
    (∀ (fs : FS) (i o : String) (t1 t2 : Nat) (lvl : Int),
      compress_path fs i o t1 lvl = compress_path fs i o t2 lvl) ∧
    (∀ (fs : FS) (i o : String) (t : Nat) (lvl : Int) (c : CodecModel),
      fsIsFile fs i = false → fsIsDir fs i = true →
      compress_path_with fs i o t lvl c =
        processFilesWith i o lvl c fs (walkFiles fs i)) := by
  refine ⟨fun _ _ _ _ _ _ _ => rfl, fun _ _ _ _ _ _ => rfl, ?_⟩
  intro fs i o t lvl c h1 h2
  simp [compress_path_with, h1, h2]

/-- C10 witness: the sequential-order equation applied at a concrete
one-file directory. -/
theorem C10_thread_oblivious_sequential_witness :
    compress_path_with ⟨[("in/a.txt", [97])], ["in"], []⟩ "in" "out" 7 3 zstdC =
      processFilesWith "in" "out" 3 zstdC ⟨[("in/a.txt", [97])], ["in"], []⟩
        (walkFiles ⟨[("in/a.txt", [97])], ["in"], []⟩ "in") :=
  C10_thread_oblivious_sequential.2.2 ⟨[("in/a.txt", [97])], ["in"], []⟩ "in" "out" 7 3
    zstdC (by decide) (by decide)

/-! ## Manifest map lemmas -/

theorem ltChars_irrefl : ∀ l, ltChars l l = false := by
  intro l
  induction l with
  | nil => rfl
  | cons a as ih => simp [ltChars, Nat.lt_irrefl, ih]

theorem ltChars_trans : ∀ l1 l2 l3, ltChars l1 l2 = true → ltChars l2 l3 = true →
    ltChars l1 l3 = true := by
  intro l1
  induction l1 with
  | nil =>
    intro l2 l3 h12 h23
    cases l2 with
    | nil => simp [ltChars] at h12
    | cons b bs =>
      cases l3 with
      | nil => simp [ltChars] at h23
      | cons c cs => rfl
  | cons a as ih =>
    intro l2 l3 h12 h23
    cases l2 with
    | nil => simp [ltChars] at h12
    | cons b bs =>
      cases l3 with
      | nil => simp [ltChars] at h23
      | cons c cs =>
        simp only [ltChars] at h12 h23 ⊢
        by_cases hab : a.toNat < b.toNat
        · by_cases hbc : b.toNat < c.toNat
          · rw [if_pos (by omega : a.toNat < c.toNat)]
          · rw [if_neg hbc] at h23
            by_cases hcb : c.toNat < b.toNat
            · rw [if_pos hcb] at h23
              exact absurd h23 (by simp)
            · rw [if_pos (by omega : a.toNat < c.toNat)]
        · rw [if_neg hab] at h12
          by_cases hba : b.toNat < a.toNat
          · rw [if_pos hba] at h12
            exact absurd h12 (by simp)
          · rw [if_neg hba] at h12
            by_cases hbc : b.toNat < c.toNat
            · rw [if_pos (by omega : a.toNat < c.toNat)]
            · rw [if_neg hbc] at h23
              by_cases hcb : c.toNat < b.toNat
              · rw [if_pos hcb] at h23
                exact absurd h23 (by simp)
              · rw [if_neg hcb] at h23
                rw [if_neg (by omega : ¬ a.toNat < c.toNat),
                  if_neg (by omega : ¬ c.toNat < a.toNat)]
                exact ih bs cs h12 h23

theorem ltChars_conn : ∀ l1 l2, ltChars l1 l2 = false → ltChars l2 l1 = false → l1 = l2 := by
  intro l1
  induction l1 with
  | nil =>
    intro l2 h12 _
    cases l2 with
    | nil => rfl
    | cons b bs => simp [ltChars] at h12
  | cons a as ih =>
    intro l2 h12 h21
    cases l2 with
    | nil => simp [ltChars] at h21
    | cons b bs =>
      simp only [ltChars] at h12 h21
      by_cases hab : a.toNat < b.toNat
      · rw [if_pos hab] at h12
        exact absurd h12 (by simp)
      · by_cases hba : b.toNat < a.toNat
        · rw [if_pos hba] at h21
          exact absurd h21 (by simp)
        · rw [if_neg hab, if_neg hba] at h12
          rw [if_neg hba, if_neg hab] at h21
          have hn : a.toNat = b.toNat := by omega
          have hc : a = b := Char.ext (UInt32.toNat.inj hn)
          rw [hc, ih bs h12 h21]

theorem strLt_irrefl (a : String) : strLt a a = false := ltChars_irrefl a.data

theorem strLt_trans (a b c : String) (h1 : strLt a b = true) (h2 : strLt b c = true) :
    strLt a c = true := ltChars_trans a.data b.data c.data h1 h2

theorem strLt_conn (a b : String) (h1 : strLt a b = false) (h2 : strLt b a = false) :
    a = b := String.ext (ltChars_conn a.data b.data h1 h2)

theorem strLt_of_not (a b : String) (h1 : strLt a b = false) (h2 : ¬ a = b) :
    strLt b a = true := by
  cases h : strLt b a with
  | true => rfl
  | false => exact absurd (strLt_conn a b h1 h) h2

theorem mlookup_minsert (k v q : String) :
    ∀ m, mlookup (minsert k v m) q = if k = q then some v else mlookup m q := by
  intro m
  induction m with
  | nil => simp [minsert, mlookup]
  | cons kv rest ih =>
    obtain ⟨k1, v1⟩ := kv
    by_cases h1 : strLt k k1 = true
    · simp only [minsert, if_pos h1, mlookup]
    · by_cases h2 : k = k1
      · subst h2
        simp only [minsert, if_neg h1, if_pos rfl, mlookup]
        by_cases hq : k = q
        · rw [if_pos hq, if_pos hq]
        · rw [if_neg hq, if_neg hq, if_neg hq]
      · simp only [minsert, if_neg h1, if_neg h2, mlookup, ih]
        by_cases hq : k = q
        · have hq1 : ¬ k1 = q := fun hh => h2 (hq.trans hh.symm)
          rw [if_neg hq1, if_pos hq, if_pos hq]
        · rw [if_neg hq, if_neg hq]

theorem mlookup_eq_none_iff (q : String) :
    ∀ m, mlookup m q = none ↔ q ∉ m.map Prod.fst := by
  intro m
  induction m with
  | nil => simp [mlookup]
  | cons kv rest ih =>
    obtain ⟨k, v⟩ := kv
    by_cases h : k = q
    · subst h
      simp [mlookup]
    · have h2 : ¬ q = k := fun hh => h hh.symm
      simp [mlookup, h, h2, ih]

theorem mlookup_some_mem (q v : String) :
    ∀ m, mlookup m q = some v → (q, v) ∈ m := by
  intro m
  induction m with
  | nil => intro h; simp [mlookup] at h
  | cons kv rest ih =>
    obtain ⟨k, w⟩ := kv
    intro h
    simp only [mlookup] at h
    by_cases hk : k = q
    · rw [if_pos hk] at h
      injection h with h2
      subst hk; subst h2
      exact List.mem_cons_self _ _
    · rw [if_neg hk] at h
      exact List.mem_cons_of_mem _ (ih h)

theorem mlookup_some_of_mem (q v : String) :
    ∀ m, (m.map Prod.fst).Nodup → (q, v) ∈ m → mlookup m q = some v := by
  intro m
  induction m with
  | nil => intro _ h; simp at h
  | cons kv rest ih =>
    obtain ⟨k, w⟩ := kv
    intro hnd hmem
    rw [List.map_cons, List.nodup_cons] at hnd
    rcases List.mem_cons.mp hmem with heq | htail
    · cases heq
      simp [mlookup]
    · have hq : q ∈ rest.map Prod.fst := by
        have := List.mem_map_of_mem Prod.fst htail
        simpa using this
      have hk : ¬ k = q := fun hh => hnd.1 (hh ▸ hq)
      simp [mlookup, hk, ih hnd.2 htail]

theorem mlookup_perm (l1 l2 : List (String × String)) (hp : l1.Perm l2)
    (hnd : (l1.map Prod.fst).Nodup) (q : String) : mlookup l1 q = mlookup l2 q := by
  have hnd2 : (l2.map Prod.fst).Nodup := ((hp.map Prod.fst).nodup_iff).mp hnd
  cases h1 : mlookup l1 q with
  | some v =>
    have hmem : (q, v) ∈ l2 := hp.mem_iff.mp (mlookup_some_mem q v l1 h1)
    exact (mlookup_some_of_mem q v l2 hnd2 hmem).symm
  | none =>
    have hnot : q ∉ l1.map Prod.fst := (mlookup_eq_none_iff q l1).mp h1
    have hnot2 : q ∉ l2.map Prod.fst := fun hmem =>
      hnot ((hp.map Prod.fst).mem_iff.mpr hmem)
    exact ((mlookup_eq_none_iff q l2).mpr hnot2).symm

theorem mem_minsert (k v : String) (x : String × String) :
    ∀ m, x ∈ minsert k v m → x = (k, v) ∨ x ∈ m := by
  intro m
  induction m with
  | nil => intro h; simp [minsert] at h; exact Or.inl h
  | cons kv rest ih =>
    obtain ⟨k1, v1⟩ := kv
    intro h
    by_cases h1 : strLt k k1 = true
    · simp only [minsert, if_pos h1] at h
      rcases List.mem_cons.mp h with h | h
      · exact Or.inl h
      · exact Or.inr h
    · by_cases h2 : k = k1
      · simp only [minsert, if_neg h1, if_pos h2] at h
        rcases List.mem_cons.mp h with h | h
        · exact Or.inl h
        · exact Or.inr (List.mem_cons_of_mem _ h)
      · simp only [minsert, if_neg h1, if_neg h2] at h
        rcases List.mem_cons.mp h with h | h
        · exact Or.inr (h ▸ List.mem_cons_self _ _)
        · rcases ih h with h3 | h3
          · exact Or.inl h3
          · exact Or.inr (List.mem_cons_of_mem _ h3)

theorem minsert_sorted (k v : String) :
    ∀ m, List.Pairwise (fun a b : String × String => strLt a.1 b.1 = true) m →
      List.Pairwise (fun a b : String × String => strLt a.1 b.1 = true) (minsert k v m) := by
  intro m
  induction m with
  | nil => intro _; simp [minsert]
  | cons kv rest ih =>
    obtain ⟨k1, v1⟩ := kv
    intro hs
    rw [List.pairwise_cons] at hs
    obtain ⟨hhead, htail⟩ := hs
    by_cases h1 : strLt k k1 = true
    · simp only [minsert, if_pos h1]
      refine List.Pairwise.cons ?_ (List.Pairwise.cons hhead htail)
      intro x hx
      rcases List.mem_cons.mp hx with he | ht
      · rw [he]; exact h1
      · exact strLt_trans _ _ _ h1 (hhead x ht)
    · by_cases h2 : k = k1
      · subst h2
        simp only [minsert, if_neg h1, if_pos rfl]
        exact List.Pairwise.cons hhead htail
      · have h3 : strLt k1 k = true :=
          strLt_of_not k k1 (by simpa using h1) h2
        simp only [minsert, if_neg h1, if_neg h2]
        refine List.Pairwise.cons ?_ (ih htail)
        intro x hx
        rcases mem_minsert k v x rest hx with he | ht
        · rw [he]; exact h3
        · exact hhead x ht

theorem minsert_length (k v : String) :
    ∀ m, mlookup m k = none → (minsert k v m).length = m.length + 1 := by
  intro m
  induction m with
  | nil => intro _; simp [minsert]
  | cons kv rest ih =>
    obtain ⟨k1, v1⟩ := kv
    intro h
    simp only [mlookup] at h
    by_cases hk : k1 = k
    · rw [if_pos hk] at h
      exact absurd h (by simp)
    · rw [if_neg hk] at h
      by_cases h1 : strLt k k1 = true
      · simp [minsert, h1]
      · have h2 : ¬ k = k1 := fun hh => hk hh.symm
        simp [minsert, h1, h2, ih h]

theorem buildManifest_sorted_aux (l : List (String × String)) :
    ∀ acc, List.Pairwise (fun a b : String × String => strLt a.1 b.1 = true) acc →
      List.Pairwise (fun a b : String × String => strLt a.1 b.1 = true)
        (List.foldl (fun m kv => minsert kv.1 kv.2 m) acc l) := by
  induction l with
  | nil => intro acc h; simpa using h
  | cons kv rest ih =>
    intro acc h
    simp only [List.foldl_cons]
    exact ih _ (minsert_sorted kv.1 kv.2 acc h)

theorem buildManifest_sorted (l : List (String × String)) :
    List.Pairwise (fun a b : String × String => strLt a.1 b.1 = true) (buildManifest l) :=
  buildManifest_sorted_aux l [] (by simp)

theorem mlookup_foldl (q : String) :
    ∀ (l acc : List (String × String)), (l.map Prod.fst).Nodup →
      mlookup (List.foldl (fun m kv => minsert kv.1 kv.2 m) acc l) q =
        (mlookup l q).or (mlookup acc q) := by
  intro l
  induction l with
  | nil => intro acc _; simp [mlookup]
  | cons kv rest ih =>
    obtain ⟨k, v⟩ := kv
    intro acc hnd
    rw [List.map_cons, List.nodup_cons] at hnd
    simp only [List.foldl_cons]
    rw [ih _ hnd.2]
    by_cases hk : k = q
    · subst hk
      have hrest : mlookup rest k = none := by
        apply (mlookup_eq_none_iff k rest).mpr
        exact hnd.1
      rw [hrest]
      simp [mlookup, mlookup_minsert]
    · have hk2 : ¬ q = k := fun hh => hk hh.symm
      simp [mlookup, hk, hk2, mlookup_minsert]

theorem sorted_head_lookup_none (k0 v0 : String) (t : List (String × String))
    (hs : List.Pairwise (fun a b : String × String => strLt a.1 b.1 = true) ((k0, v0) :: t)) :
    mlookup t k0 = none := by
  rw [List.pairwise_cons] at hs
  apply (mlookup_eq_none_iff k0 t).mpr
  intro hmem
  obtain ⟨x, hx, hfx⟩ := List.mem_map.mp hmem
  have h2 := hs.1 x hx
  rw [hfx] at h2
  rw [strLt_irrefl] at h2
  exact absurd h2 (by simp)

theorem sorted_lt_head_lookup_none (k0 v0 : String) (t : List (String × String))
    (q : String)
    (hs : List.Pairwise (fun a b : String × String => strLt a.1 b.1 = true) ((k0, v0) :: t))
    (hq : strLt q k0 = true) : mlookup ((k0, v0) :: t) q = none := by
  rw [List.pairwise_cons] at hs
  simp only [mlookup]
  have hne : ¬ k0 = q := by
    intro hh
    rw [hh] at hq
    rw [strLt_irrefl] at hq
    exact absurd hq (by simp)
  rw [if_neg hne]
  apply (mlookup_eq_none_iff q t).mpr
  intro hmem
  obtain ⟨x, hx, hfx⟩ := List.mem_map.mp hmem
  have h2 := hs.1 x hx
  rw [hfx] at h2
  have h3 := strLt_trans q k0 q hq h2
  rw [strLt_irrefl] at h3
  exact absurd h3 (by simp)

theorem sorted_ext :
    ∀ (m1 m2 : List (String × String)),
      List.Pairwise (fun a b : String × String => strLt a.1 b.1 = true) m1 →
      List.Pairwise (fun a b : String × String => strLt a.1 b.1 = true) m2 →
      (∀ q, mlookup m1 q = mlookup m2 q) → m1 = m2 := by
  intro m1
  induction m1 with
  | nil =>
    intro m2 _ hs2 hl
    cases m2 with
    | nil => rfl
    | cons kv t =>
      obtain ⟨k, v⟩ := kv
      have := hl k
      simp [mlookup] at this
  | cons kv t1 ih =>
    obtain ⟨k1, v1⟩ := kv
    intro m2 hs1 hs2 hl
    cases m2 with
    | nil =>
      have := hl k1
      simp [mlookup] at this
    | cons kv2 t2 =>
      obtain ⟨k2, v2⟩ := kv2
      by_cases hlt : strLt k1 k2 = true
      · exfalso
        have e1 : mlookup ((k1, v1) :: t1) k1 = some v1 := by simp [mlookup]
        have e2 := sorted_lt_head_lookup_none k2 v2 t2 k1 hs2 hlt
        rw [hl k1] at e1
        rw [e1] at e2
        exact absurd e2 (by simp)
      · by_cases hgt : strLt k2 k1 = true
        · exfalso
          have e1 : mlookup ((k2, v2) :: t2) k2 = some v2 := by simp [mlookup]
          have e2 := sorted_lt_head_lookup_none k1 v1 t1 k2 hs1 hgt
          rw [← hl k2] at e1
          rw [e1] at e2
          exact absurd e2 (by simp)
        · have heq : k1 = k2 :=
            strLt_conn k1 k2 (by simpa using hlt) (by simpa using hgt)
          subst heq
          have hv : some v1 = some v2 := by
            have e1 : mlookup ((k1, v1) :: t1) k1 = some v1 := by simp [mlookup]
            have e2 : mlookup ((k1, v2) :: t2) k1 = some v2 := by simp [mlookup]
            rw [← e1, ← e2, hl k1]
          injection hv with hv
          subst hv
          have hteq : t1 = t2 := by
            apply ih t2 hs1.of_cons hs2.of_cons
            intro q
            by_cases hq : q = k1
            · subst hq
              rw [sorted_head_lookup_none _ _ _ hs1, sorted_head_lookup_none _ _ _ hs2]
            · have hlq := hl q
              have hne : ¬ k1 = q := fun hh => hq hh.symm
              simp only [mlookup, if_neg hne] at hlq
              exact hlq
          rw [hteq]

theorem buildManifest_canonical (l1 l2 : List (String × String)) (hp : l1.Perm l2)
    (hnd : (l1.map Prod.fst).Nodup) : buildManifest l1 = buildManifest l2 := by
  have hnd2 : (l2.map Prod.fst).Nodup := ((hp.map Prod.fst).nodup_iff).mp hnd
  apply sorted_ext _ _ (buildManifest_sorted l1) (buildManifest_sorted l2)
  intro q
  have e1 := mlookup_foldl q l1 [] hnd
  have e2 := mlookup_foldl q l2 [] hnd2
  unfold buildManifest
  rw [e1, e2, mlookup_perm l1 l2 hp hnd q]


/-! ## Tree loop step lemmas -/

theorem processFiles_cons_err (input output : String) (lvl : Int) (fs : FS)
    (f : String) (rest : List String) (m : List (String × String)) (fsa : FS) (ea : String)
    (heq : compress_single_file fs f
      (withExtension (joinPath output (relOf input f)) "zst") lvl = (fsa, .error ea)) :
    processFiles input output lvl fs (f :: rest) m = (fsa, m, .error ea) := by
  simp only [processFiles]
  split
  · next fsb eb heq2 =>
    rw [heq] at heq2
    injection heq2 with h1 h2
    injection h2 with h3
    subst h1; subst h3
    rfl
  · next fsb st heq2 =>
    rw [heq] at heq2
    injection heq2 with h1 h2
    simp at h2

theorem processFiles_cons_shaNone (input output : String) (lvl : Int) (fs : FS)
    (f : String) (rest : List String) (m : List (String × String)) (fsa : FS) (st : Stats)
    (heq : compress_single_file fs f
      (withExtension (joinPath output (relOf input f)) "zst") lvl = (fsa, .ok st))
    (hsha : sha256_file fsa (withExtension (joinPath output (relOf input f)) "zst") = none) :
    processFiles input output lvl fs (f :: rest) m =
      (fsa, m, .error ("Failed to open " ++
        withExtension (joinPath output (relOf input f)) "zst")) := by
  simp only [processFiles]
  split
  · next fsb eb heq2 =>
    rw [heq] at heq2
    injection heq2 with h1 h2
    simp at h2
  · next fsb st2 heq2 =>
    rw [heq] at heq2
    injection heq2 with h1 h2
    subst h1
    split
    · rfl
    · next hv hsha2 =>
      rw [hsha] at hsha2
      simp at hsha2

theorem processFiles_cons_ok (input output : String) (lvl : Int) (fs : FS)
    (f : String) (rest : List String) (m : List (String × String)) (fsa : FS) (st : Stats)
    (hv : String)
    (heq : compress_single_file fs f
      (withExtension (joinPath output (relOf input f)) "zst") lvl = (fsa, .ok st))
    (hsha : sha256_file fsa (withExtension (joinPath output (relOf input f)) "zst")
      = some hv) :
    processFiles input output lvl fs (f :: rest) m =
      processFiles input output lvl fsa rest
        (minsert (withExtension (relOf input f) "zst") hv m) := by
  simp only [processFiles]
  split
  · next fsb eb heq2 =>
    rw [heq] at heq2
    injection heq2 with h1 h2
    simp at h2
  · next fsb st2 heq2 =>
    rw [heq] at heq2
    injection heq2 with h1 h2
    subst h1
    split
    · next hsha2 =>
      rw [hsha] at hsha2
      simp at hsha2
    · next hv2 hsha2 =>
      rw [hsha] at hsha2
      injection hsha2 with h3
      subst h3
      rfl

theorem processFilesWith_cons_err (input output : String) (lvl : Int) (c : CodecModel)
    (fs : FS) (f : String) (rest : List String) (fsa : FS) (ea : String)
    (heq : compress_single_file_with fs f
      (withExtension (joinPath output (relOf input f)) c.ext) lvl c = (fsa, .error ea)) :
    processFilesWith input output lvl c fs (f :: rest) = (fsa, .error ea) := by
  simp only [processFilesWith]
  split
  · next fsb eb heq2 =>
    rw [heq] at heq2
    injection heq2 with h1 h2
    injection h2 with h3
    subst h1; subst h3
    rfl
  · next fsb st heq2 =>
    rw [heq] at heq2
    injection heq2 with h1 h2
    simp at h2

theorem processFilesWith_cons_ok (input output : String) (lvl : Int) (c : CodecModel)
    (fs : FS) (f : String) (rest : List String) (fsa : FS) (st : Stats) (len : List Nat)
    (heq : compress_single_file_with fs f
      (withExtension (joinPath output (relOf input f)) c.ext) lvl c = (fsa, .ok st))
    (hmeta : fsLookup fsa f = some len) :
    processFilesWith input output lvl c fs (f :: rest) =
      processFilesWith input output lvl c fsa rest := by
  simp only [processFilesWith]
  split
  · next fsb eb heq2 =>
    rw [heq] at heq2
    injection heq2 with h1 h2
    simp at h2
  · next fsb st2 heq2 =>
    rw [heq] at heq2
    injection heq2 with h1 h2
    subst h1
    split
    · next hmeta2 =>
      rw [hmeta] at hmeta2
      simp at hmeta2
    · next len2 hmeta2 =>
      rfl

/-! ## Tree loop invariants -/

theorem processFiles_state (input output : String) (lvl : Int) :
    ∀ (files : List String) (fs : FS) (m : List (String × String)),
      (processFiles input output lvl fs files m).1.locked = fs.locked ∧
      (processFiles input output lvl fs files m).1.dirs = fs.dirs := by
  intro files
  induction files with
  | nil => intro fs m; exact ⟨rfl, rfl⟩
  | cons f rest ih =>
    intro fs m
    have hst := csfw_state zstdC fs f
      (withExtension (joinPath output (relOf input f)) "zst") lvl
    rw [← compress_single_file_eq] at hst
    cases hcsf : compress_single_file fs f
        (withExtension (joinPath output (relOf input f)) "zst") lvl with
    | mk fsa r =>
      rw [hcsf] at hst
      cases r with
      | error ea =>
        rw [processFiles_cons_err input output lvl fs f rest m fsa ea hcsf]
        exact hst
      | ok st =>
        cases hsha : sha256_file fsa
            (withExtension (joinPath output (relOf input f)) "zst") with
        | none =>
          rw [processFiles_cons_shaNone input output lvl fs f rest m fsa st hcsf hsha]
          exact hst
        | some hv =>
          rw [processFiles_cons_ok input output lvl fs f rest m fsa st hv hcsf hsha]
          have hr := ih fsa (minsert (withExtension (relOf input f) "zst") hv m)
          exact ⟨hr.1.trans hst.1, hr.2.trans hst.2⟩

theorem processFiles_frame (input output : String) (lvl : Int) (p : String)
    (hp : ∀ q : String, p ≠ withExtension q "zst" ∧
      p ≠ tmp_path_of (withExtension q "zst")) :
    ∀ (files : List String) (fs : FS) (m : List (String × String)),
      fsLookup (processFiles input output lvl fs files m).1 p = fsLookup fs p := by
  intro files
  induction files with
  | nil => intro fs m; rfl
  | cons f rest ih =>
    intro fs m
    have hfr := csfw_frame zstdC fs f
      (withExtension (joinPath output (relOf input f)) "zst") lvl p
      (hp (joinPath output (relOf input f))).2 (hp (joinPath output (relOf input f))).1
    rw [← compress_single_file_eq] at hfr
    cases hcsf : compress_single_file fs f
        (withExtension (joinPath output (relOf input f)) "zst") lvl with
    | mk fsa r =>
      rw [hcsf] at hfr
      cases r with
      | error ea =>
        rw [processFiles_cons_err input output lvl fs f rest m fsa ea hcsf]
        exact hfr
      | ok st =>
        cases hsha : sha256_file fsa
            (withExtension (joinPath output (relOf input f)) "zst") with
        | none =>
          rw [processFiles_cons_shaNone input output lvl fs f rest m fsa st hcsf hsha]
          exact hfr
        | some hv =>
          rw [processFiles_cons_ok input output lvl fs f rest m fsa st hv hcsf hsha]
          rw [ih fsa (minsert (withExtension (relOf input f) "zst") hv m)]
          exact hfr

theorem processFiles_error_prefix (input output : String) (lvl : Int) :
    ∀ (files : List String) (fs : FS) (m : List (String × String)) (fs1 : FS)
      (m1 : List (String × String)) (e : String),
      processFiles input output lvl fs files m = (fs1, m1, .error e) →
      ∃ k, k < files.length ∧
        processFiles input output lvl fs (files.take (k + 1)) m = (fs1, m1, .error e) := by
  intro files
  induction files with
  | nil =>
    intro fs m fs1 m1 e h
    simp only [processFiles] at h
    injection h with _ h2
    injection h2 with _ h3
    simp at h3
  | cons f rest ih =>
    intro fs m fs1 m1 e h
    cases hcsf : compress_single_file fs f
        (withExtension (joinPath output (relOf input f)) "zst") lvl with
    | mk fsa r =>
      cases r with
      | error ea =>
        refine ⟨0, by simp only [List.length_cons]; omega, ?_⟩
        simp only [List.take_succ_cons, List.take_zero]
        rw [processFiles_cons_err input output lvl fs f [] m fsa ea hcsf]
        rw [processFiles_cons_err input output lvl fs f rest m fsa ea hcsf] at h
        exact h
      | ok st =>
        cases hsha : sha256_file fsa
            (withExtension (joinPath output (relOf input f)) "zst") with
        | none =>
          refine ⟨0, by simp only [List.length_cons]; omega, ?_⟩
          simp only [List.take_succ_cons, List.take_zero]
          rw [processFiles_cons_shaNone input output lvl fs f [] m fsa st hcsf hsha]
          rw [processFiles_cons_shaNone input output lvl fs f rest m fsa st hcsf hsha] at h
          exact h
        | some hv =>
          rw [processFiles_cons_ok input output lvl fs f rest m fsa st hv hcsf hsha] at h
          obtain ⟨k, hk, hpre⟩ :=
            ih fsa (minsert (withExtension (relOf input f) "zst") hv m) fs1 m1 e h
          refine ⟨k + 1, by simp only [List.length_cons]; omega, ?_⟩
          simp only [List.take_succ_cons]
          rw [processFiles_cons_ok input output lvl fs f (rest.take (k + 1)) m fsa st hv
            hcsf hsha]
          exact hpre

theorem processFilesWith_error_prefix (input output : String) (lvl : Int) (c : CodecModel) :
    ∀ (files : List String) (fs : FS) (fs1 : FS) (e : String),
      processFilesWith input output lvl c fs files = (fs1, .error e) →
      ∃ k, k < files.length ∧
        processFilesWith input output lvl c fs (files.take (k + 1)) = (fs1, .error e) := by
  intro files
  induction files with
  | nil =>
    intro fs fs1 e h
    simp only [processFilesWith] at h
    injection h with _ h2
    simp at h2
  | cons f rest ih =>
    intro fs fs1 e h
    cases hcsf : compress_single_file_with fs f
        (withExtension (joinPath output (relOf input f)) c.ext) lvl c with
    | mk fsa r =>
      cases r with
      | error ea =>
        refine ⟨0, by simp only [List.length_cons]; omega, ?_⟩
        simp only [List.take_succ_cons, List.take_zero]
        rw [processFilesWith_cons_err input output lvl c fs f [] fsa ea hcsf]
        rw [processFilesWith_cons_err input output lvl c fs f rest fsa ea hcsf] at h
        exact h
      | ok st =>
        cases hmeta : fsLookup fsa f with
        | none =>
          refine ⟨0, by simp only [List.length_cons]; omega, ?_⟩
          simp only [List.take_succ_cons, List.take_zero]
          have hstep : ∀ rest2, processFilesWith input output lvl c fs (f :: rest2) =
              (fsa, .error ("metadata failed " ++ f)) := by
            intro rest2
            simp only [processFilesWith]
            split
            · next fsb eb heq2 =>
              rw [hcsf] at heq2
              injection heq2 with h1 h2
              simp at h2
            · next fsb st2 heq2 =>
              rw [hcsf] at heq2
              injection heq2 with h1 h2
              subst h1
              split
              · rfl
              · next len2 hmeta2 =>
                rw [hmeta] at hmeta2
                simp at hmeta2
          rw [hstep []]
          rw [hstep rest] at h
          exact h
        | some len =>
          rw [processFilesWith_cons_ok input output lvl c fs f rest fsa st len hcsf
            hmeta] at h
          obtain ⟨k, hk, hpre⟩ := ih fsa fs1 e h
          refine ⟨k + 1, by simp only [List.length_cons]; omega, ?_⟩
          simp only [List.take_succ_cons]
          rw [processFilesWith_cons_ok input output lvl c fs f (rest.take (k + 1)) fsa st
            len hcsf hmeta]
          exact hpre

theorem processFiles_ok_length (input output : String) (lvl : Int) :
    ∀ (files : List String) (fs : FS) (m : List (String × String)) (fs1 : FS)
      (m1 : List (String × String)),
      processFiles input output lvl fs files m = (fs1, m1, .ok ()) →
      (files.map (fun f => withExtension (relOf input f) "zst")).Nodup →
      (∀ f ∈ files, mlookup m (withExtension (relOf input f) "zst") = none) →
      m1.length = m.length + files.length := by
  intro files
  induction files with
  | nil =>
    intro fs m fs1 m1 h _ _
    simp only [processFiles] at h
    injection h with _ h2
    injection h2 with h3 _
    rw [← h3]
    simp
  | cons f rest ih =>
    intro fs m fs1 m1 h hnd hnone
    rw [List.map_cons, List.nodup_cons] at hnd
    cases hcsf : compress_single_file fs f
        (withExtension (joinPath output (relOf input f)) "zst") lvl with
    | mk fsa r =>
      cases r with
      | error ea =>
        rw [processFiles_cons_err input output lvl fs f rest m fsa ea hcsf] at h
        injection h with _ h2
        injection h2 with _ h3
        simp at h3
      | ok st =>
        cases hsha : sha256_file fsa
            (withExtension (joinPath output (relOf input f)) "zst") with
        | none =>
          rw [processFiles_cons_shaNone input output lvl fs f rest m fsa st hcsf hsha] at h
          injection h with _ h2
          injection h2 with _ h3
          simp at h3
        | some hv =>
          rw [processFiles_cons_ok input output lvl fs f rest m fsa st hv hcsf hsha] at h
          have hlen := minsert_length (withExtension (relOf input f) "zst") hv m
            (hnone f (List.mem_cons_self f rest))
          have hcond : ∀ g ∈ rest,
              mlookup (minsert (withExtension (relOf input f) "zst") hv m)
                (withExtension (relOf input g) "zst") = none := by
            intro g hg
            rw [mlookup_minsert]
            have hne : ¬ withExtension (relOf input f) "zst"
                = withExtension (relOf input g) "zst" := by
              intro hh
              apply hnd.1
              rw [hh]
              exact List.mem_map_of_mem _ hg
            rw [if_neg hne]
            exact hnone g (List.mem_cons_of_mem f hg)
          have hrec := ih fsa (minsert (withExtension (relOf input f) "zst") hv m)
            fs1 m1 h hnd.2 hcond
          rw [hrec, hlen]
          simp only [List.length_cons]
          omega

theorem processFiles_sorted (input output : String) (lvl : Int) :
    ∀ (files : List String) (fs : FS) (m : List (String × String)),
      List.Pairwise (fun a b : String × String => strLt a.1 b.1 = true) m →
      List.Pairwise (fun a b : String × String => strLt a.1 b.1 = true)
        (processFiles input output lvl fs files m).2.1 := by
  intro files
  induction files with
  | nil => intro fs m hm; exact hm
  | cons f rest ih =>
    intro fs m hm
    cases hcsf : compress_single_file fs f
        (withExtension (joinPath output (relOf input f)) "zst") lvl with
    | mk fsa r =>
      cases r with
      | error ea =>
        rw [processFiles_cons_err input output lvl fs f rest m fsa ea hcsf]
        exact hm
      | ok st =>
        cases hsha : sha256_file fsa
            (withExtension (joinPath output (relOf input f)) "zst") with
        | none =>
          rw [processFiles_cons_shaNone input output lvl fs f rest m fsa st hcsf hsha]
          exact hm
        | some hv =>
          rw [processFiles_cons_ok input output lvl fs f rest m fsa st hv hcsf hsha]
          exact ih fsa _ (minsert_sorted _ hv m hm)

theorem verifyEntries_ok (output : String) (fs : FS) :
    ∀ m, verifyEntries output fs m = .ok () →
      ∀ kv ∈ m, sha256_file fs (joinPath output kv.1) = some kv.2 := by
  intro m
  induction m with
  | nil => intro _ kv hkv; simp at hkv
  | cons x rest ih =>
    obtain ⟨file, expected⟩ := x
    intro h kv hkv
    simp only [verifyEntries] at h
    split at h
    · simp at h
    · next actual hsha =>
      split at h
      · next hac =>
        rcases List.mem_cons.mp hkv with he | ht
        · rw [he]
          simpa using hsha.trans (congrArg some hac)
        · exact ih h kv ht
      · simp at h

/-! ## Dir-mode reductions of the tree compressors -/

theorem compress_path_dir (fs : FS) (i o : String) (t : Nat) (lvl : Int)
    (h1 : fsIsFile fs i = false) (h2 : fsIsDir fs i = true) :
    compress_path fs i o t lvl =
      match processFiles i o lvl fs (walkFiles fs i) [] with
      | (fs1, _m, .error e) => (fs1, .error e)
      | (fs1, m, .ok _u) =>
        if fs1.locked.contains (joinPath o "manifest-sha256.txt") then
          (fs1, .error ("Failed to create " ++ joinPath o "manifest-sha256.txt"))
        else
          (fsWrite fs1 (joinPath o "manifest-sha256.txt") (strToBytes (renderManifest m)),
            verifyEntries o
              (fsWrite fs1 (joinPath o "manifest-sha256.txt")
                (strToBytes (renderManifest m))) m) := by
  simp [compress_path, h1, h2]

theorem compress_path_with_dir (fs : FS) (i o : String) (t : Nat) (lvl : Int)
    (c : CodecModel) (h1 : fsIsFile fs i = false) (h2 : fsIsDir fs i = true) :
    compress_path_with fs i o t lvl c = processFilesWith i o lvl c fs (walkFiles fs i) := by
  simp [compress_path_with, h1, h2]

theorem compress_path_dir_err (fs : FS) (i o : String) (t : Nat) (lvl : Int)
    (fs1 : FS) (m : List (String × String)) (e : String)
    (h1 : fsIsFile fs i = false) (h2 : fsIsDir fs i = true)
    (h3 : processFiles i o lvl fs (walkFiles fs i) [] = (fs1, m, .error e)) :
    compress_path fs i o t lvl = (fs1, .error e) := by
  rw [compress_path_dir fs i o t lvl h1 h2, h3]

theorem compress_path_dir_ok (fs : FS) (i o : String) (t : Nat) (lvl : Int)
    (fs1 : FS) (m : List (String × String))
    (h1 : fsIsFile fs i = false) (h2 : fsIsDir fs i = true)
    (h3 : processFiles i o lvl fs (walkFiles fs i) [] = (fs1, m, .ok ()))
    (h4 : fs.locked.contains (joinPath o "manifest-sha256.txt") = false) :
    compress_path fs i o t lvl =
      (fsWrite fs1 (joinPath o "manifest-sha256.txt") (strToBytes (renderManifest m)),
        verifyEntries o
          (fsWrite fs1 (joinPath o "manifest-sha256.txt")
            (strToBytes (renderManifest m))) m) := by
  have hst : fs1.locked = fs.locked := by
    have hh := (processFiles_state i o lvl (walkFiles fs i) fs []).1
    rw [h3] at hh
    exact hh
  have hcond : fs1.locked.contains (joinPath o "manifest-sha256.txt") = false := by
    rw [hst]
    exact h4
  simp only [compress_path, h1, h2, hcond, Bool.false_eq_true, if_false, if_true, h3]

/-! ## Suffix disjointness of the written paths -/

theorem withExtension_suffix (q e : String) :
    ∃ pre, (withExtension q e).data = pre ++ '.' :: e.data := by
  refine ⟨(fileDirSplit q).1 ++ (stemExtSplit (fileDirSplit q).2).1, ?_⟩
  rw [withExtension_data]

theorem tmp_suffix (x : String) :
    ∃ pre, (tmp_path_of x).data = pre ++ ['p', 'a', 'r', 't'] := by
  refine ⟨x.data ++ ['.'], ?_⟩
  rw [tmp_path_of_eq, strData_append]
  have hpt : (".part".data : List Char) = ['.'] ++ ['p', 'a', 'r', 't'] := by decide
  rw [hpt, ← List.append_assoc]

theorem manifestPath_suffix (output : String) :
    ∃ pre, (joinPath output "manifest-sha256.txt").data = pre ++ ['.', 't', 'x', 't'] := by
  refine ⟨output.data ++ "/manifest-sha256".data, ?_⟩
  show (output ++ "/" ++ "manifest-sha256.txt").data = _
  rw [strData_append, strData_append]
  have hconc : ("/".data ++ "manifest-sha256.txt".data : List Char) =
      "/manifest-sha256".data ++ ['.', 't', 'x', 't'] := by decide
  rw [List.append_assoc, hconc, ← List.append_assoc]

theorem ne_of_suffix4 (x y : String) (sx sy : List Char)
    (hx : ∃ pre, x.data = pre ++ sx) (hy : ∃ pre, y.data = pre ++ sy)
    (hlen : sy.length = sx.length) (hne : sy ≠ sx) : x ≠ y := by
  intro he
  obtain ⟨px, hpx⟩ := hx
  obtain ⟨py, hpy⟩ := hy
  rw [he, hpy] at hpx
  exact hne ((List.append_inj' hpx hlen).2)

theorem manifest_ne_paths (o q : String) :
    joinPath o "manifest-sha256.txt" ≠ withExtension q "zst" ∧
    joinPath o "manifest-sha256.txt" ≠ tmp_path_of (withExtension q "zst") := by
  constructor
  · refine ne_of_suffix4 _ _ ['.', 't', 'x', 't'] ['.', 'z', 's', 't']
      (manifestPath_suffix o) ?_ (by decide) (by decide)
    obtain ⟨pre, hp⟩ := withExtension_suffix q "zst"
    exact ⟨pre, hp⟩
  · exact ne_of_suffix4 _ _ ['.', 't', 'x', 't'] ['p', 'a', 'r', 't']
      (manifestPath_suffix o) (tmp_suffix _) (by decide) (by decide)

/-! ## C5: fail-fast tree policy -/

/-- C5: in directory mode, if compression of a single file fails, the
tree operation (compress_path and compress_path_with) returns that
failure, only a prefix of the walked files up to and including the
failing one has been processed, and compress_path leaves the manifest
path untouched, so no manifest entry claims success for the failed
file. -/
theorem C5_failfast :
    (∀ (fs : FS) (i o : String) (t : Nat) (lvl : Int) (fs1 : FS)
        (m : List (String × String)) (e : String),
      fsIsFile fs i = false → fsIsDir fs i = true →
      processFiles i o lvl fs (walkFiles fs i) [] = (fs1, m, .error e) →
      compress_path fs i o t lvl = (fs1, .error e) ∧
      fsLookup fs1 (joinPath o "manifest-sha256.txt") =
        fsLookup fs (joinPath o "manifest-sha256.txt") ∧
      ∃ k, k < (walkFiles fs i).length ∧
        processFiles i o lvl fs ((walkFiles fs i).take (k + 1)) [] = (fs1, m, .error e)) ∧
    (∀ (fs : FS) (i o : String) (t : Nat) (lvl : Int) (fs1 : FS) (e : String)
        (c : CodecModel),
      fsIsFile fs i = false → fsIsDir fs i = true →
      processFilesWith i o lvl c fs (walkFiles fs i) = (fs1, .error e) →
      compress_path_with fs i o t lvl c = (fs1, .error e) ∧
      ∃ k, k < (walkFiles fs i).length ∧
        processFilesWith i o lvl c fs ((walkFiles fs i).take (k + 1)) = (fs1, .error e)) := by
  constructor
  · intro fs i o t lvl fs1 m e h1 h2 h3
    refine ⟨compress_path_dir_err fs i o t lvl fs1 m e h1 h2 h3, ?_, ?_⟩
    · have hfr := processFiles_frame i o lvl (joinPath o "manifest-sha256.txt")
        (fun q => manifest_ne_paths o q) (walkFiles fs i) fs []
      rw [h3] at hfr
      exact hfr
    · exact processFiles_error_prefix i o lvl (walkFiles fs i) fs [] fs1 m e h3
  · intro fs i o t lvl fs1 e c h1 h2 h3
    refine ⟨?_, processFilesWith_error_prefix i o lvl c (walkFiles fs i) fs fs1 e h3⟩
    rw [compress_path_with_dir fs i o t lvl c h1 h2]
    exact h3

/-- C5 witness: the theorem applied to a concrete one-file directory
whose temp artifact path is locked, for both tree compressors. -/
theorem C5_failfast_witness :
    compress_path ⟨[("in/a.txt", [97])], ["in"], ["out/a.zst.part", "out/a.gz.part"]⟩
      "in" "out" 4 3 =
      (⟨[("in/a.txt", [97])], ["in"], ["out/a.zst.part", "out/a.gz.part"]⟩,
        .error "Failed to create out/a.zst.part") ∧
    compress_path_with ⟨[("in/a.txt", [97])], ["in"], ["out/a.zst.part", "out/a.gz.part"]⟩
      "in" "out" 4 3 gzipC =
      (⟨[("in/a.txt", [97])], ["in"], ["out/a.zst.part", "out/a.gz.part"]⟩,
        .error "Failed to create out/a.gz.part") :=
  ⟨(C5_failfast.1 ⟨[("in/a.txt", [97])], ["in"], ["out/a.zst.part", "out/a.gz.part"]⟩
      "in" "out" 4 3
      ⟨[("in/a.txt", [97])], ["in"], ["out/a.zst.part", "out/a.gz.part"]⟩ []
      "Failed to create out/a.zst.part" (by decide) (by decide) rfl).1,
   (C5_failfast.2 ⟨[("in/a.txt", [97])], ["in"], ["out/a.zst.part", "out/a.gz.part"]⟩
      "in" "out" 4 3
      ⟨[("in/a.txt", [97])], ["in"], ["out/a.zst.part", "out/a.gz.part"]⟩
      "Failed to create out/a.gz.part" gzipC (by decide) (by decide) rfl).1⟩

/-! ## C3: manifest completeness -/

/-- C3 counterexample: a directory with two regular files a.md and
a.txt, whose outputs collide at a.zst after the extension is replaced:
the run succeeds, yet the manifest holds one single entry while the
tree held two regular files. -/
theorem C3_counterexample :
    (compress_path ⟨[("in/a.md", [97]), ("in/a.txt", [98])], ["in"], []⟩
      "in" "out" 4 3).2 = Except.ok () ∧
    (walkFiles ⟨[("in/a.md", [97]), ("in/a.txt", [98])], ["in"], []⟩ "in").length = 2 ∧
    (fsLookup (compress_path ⟨[("in/a.md", [97]), ("in/a.txt", [98])], ["in"], []⟩
        "in" "out" 4 3).1 "out/manifest-sha256.txt").map nlCount = some 1 :=
  ⟨rfl, rfl, rfl⟩

/-- C3 amended: after a successful directory-tree compression, when
the output relative paths of the walked files are pairwise distinct
(no extension-replacement collisions), the manifest has exactly one
entry per walked regular file, and each entry digest equals the digest
of its output file recomputed from the final filesystem state. -/
theorem C3_manifest_amended (fs : FS) (i o : String) (t : Nat) (lvl : Int) (fs' : FS)
    (h1 : fsIsFile fs i = false) (h2 : fsIsDir fs i = true)
    (hok : compress_path fs i o t lvl = (fs', Except.ok ()))
    (hnd : ((walkFiles fs i).map (fun f => withExtension (relOf i f) "zst")).Nodup) :
    ∃ fs1 m, processFiles i o lvl fs (walkFiles fs i) [] = (fs1, m, .ok ()) ∧
      m.length = (walkFiles fs i).length ∧
      fs' = fsWrite fs1 (joinPath o "manifest-sha256.txt") (strToBytes (renderManifest m)) ∧
      ∀ kv ∈ m, sha256_file fs' (joinPath o kv.1) = some kv.2 := by
  rw [compress_path_dir fs i o t lvl h1 h2] at hok
  split at hok
  · next fs1 m e heq =>
    injection hok with _ hb
    simp at hb
  · next fs1 m u heq =>
    split at hok
    · injection hok with _ hb
      simp at hb
    · next hlock =>
      injection hok with ha hb
      cases u
      refine ⟨fs1, m, heq, ?_, ha.symm, ?_⟩
      · have hlen := processFiles_ok_length i o lvl (walkFiles fs i) fs [] fs1 m heq hnd
          (fun f _ => rfl)
        simpa using hlen
      · intro kv hkv
        rw [← ha]
        exact verifyEntries_ok o _ m hb kv hkv

/-- C3 witness: the amended theorem applied to a concrete two-file
directory with distinct output paths. -/
theorem C3_manifest_amended_witness :
    ∃ fs1 m,
      processFiles "in" "out" 3 ⟨[("in/a.txt", [97]), ("in/b.txt", [98])], ["in"], []⟩
        (walkFiles ⟨[("in/a.txt", [97]), ("in/b.txt", [98])], ["in"], []⟩ "in") []
        = (fs1, m, .ok ()) ∧
      m.length =
        (walkFiles ⟨[("in/a.txt", [97]), ("in/b.txt", [98])], ["in"], []⟩ "in").length ∧
      (compress_path ⟨[("in/a.txt", [97]), ("in/b.txt", [98])], ["in"], []⟩
          "in" "out" 4 3).1 =
        fsWrite fs1 (joinPath "out" "manifest-sha256.txt")
          (strToBytes (renderManifest m)) ∧
      ∀ kv ∈ m,
        sha256_file (compress_path ⟨[("in/a.txt", [97]), ("in/b.txt", [98])], ["in"], []⟩
          "in" "out" 4 3).1 (joinPath "out" kv.1) = some kv.2 :=
  C3_manifest_amended ⟨[("in/a.txt", [97]), ("in/b.txt", [98])], ["in"], []⟩ "in" "out" 4 3
    (compress_path ⟨[("in/a.txt", [97]), ("in/b.txt", [98])], ["in"], []⟩ "in" "out" 4 3).1
    (by decide) (by decide) rfl (by decide)

/-! ## C4: manifest location, format and determinism -/

/-- C4 counterexample: a successful directory-tree compression through
compress_path_with (the function the CLI uses) writes no manifest at
all: the well-known manifest path does not exist after the run. -/
theorem C4_counterexample :
    (compress_path_with ⟨[("in/a.txt", [97])], ["in"], []⟩ "in" "out" 4 3 zstdC).2 =
      Except.ok () ∧
    fsLookup (compress_path_with ⟨[("in/a.txt", [97])], ["in"], []⟩ "in" "out" 4 3
      zstdC).1 "out/manifest-sha256.txt" = none :=
  ⟨rfl, rfl⟩

/-- C4 amended: the zstd-only tree compressor compress_path (not
compress_path_with, which writes no manifest) writes the manifest at
the fixed well-known name directly under the output root, one
newline-terminated line per entry of the form digest, whitespace,
path, sorted by path; and serializing the same entry set in any
insertion order produces byte-identical manifests. -/
theorem C4_manifest_amended :
    (∀ (fs : FS) (i o : String) (t : Nat) (lvl : Int) (fs1 : FS)
        (m : List (String × String)),
      fsIsFile fs i = false → fsIsDir fs i = true →
      processFiles i o lvl fs (walkFiles fs i) [] = (fs1, m, .ok ()) →
      fs.locked.contains (joinPath o "manifest-sha256.txt") = false →
      fsLookup (compress_path fs i o t lvl).1 (joinPath o "manifest-sha256.txt") =
        some (strToBytes (renderManifest m)) ∧
      List.Pairwise (fun a b : String × String => strLt a.1 b.1 = true) m) ∧
    (∀ l1 l2 : List (String × String), l1.Perm l2 → (l1.map Prod.fst).Nodup →
      renderManifest (buildManifest l1) = renderManifest (buildManifest l2)) := by
  constructor
  · intro fs i o t lvl fs1 m h1 h2 h3 h4
    constructor
    · rw [compress_path_dir_ok fs i o t lvl fs1 m h1 h2 h3 h4]
      show fsLookup (fsWrite fs1 (joinPath o "manifest-sha256.txt")
        (strToBytes (renderManifest m))) (joinPath o "manifest-sha256.txt") = _
      rw [fsLookup_write, if_pos rfl]
    · have hs := processFiles_sorted i o lvl (walkFiles fs i) fs [] (by simp)
      rw [h3] at hs
      exact hs
  · intro l1 l2 hp hnd
    rw [buildManifest_canonical l1 l2 hp hnd]

/-- C4 witness: the amended theorem applied to a concrete one-file
directory, and the determinism part applied to two insertion orders of
the same two entries. -/
theorem C4_manifest_amended_witness :
    (fsLookup (compress_path ⟨[("in/a.txt", [97])], ["in"], []⟩ "in" "out" 4 3).1
        (joinPath "out" "manifest-sha256.txt") =
      some (strToBytes (renderManifest [("a.zst", sha256Hex [90, 97])])) ∧
     List.Pairwise (fun a b : String × String => strLt a.1 b.1 = true)
       [("a.zst", sha256Hex [90, 97])]) ∧
    renderManifest (buildManifest [("b.zst", "h2"), ("a.zst", "h1")]) =
      renderManifest (buildManifest [("a.zst", "h1"), ("b.zst", "h2")]) :=
  ⟨C4_manifest_amended.1 ⟨[("in/a.txt", [97])], ["in"], []⟩ "in" "out" 4 3
      (processFiles "in" "out" 3 ⟨[("in/a.txt", [97])], ["in"], []⟩
        (walkFiles ⟨[("in/a.txt", [97])], ["in"], []⟩ "in") []).1
      [("a.zst", sha256Hex [90, 97])]
      (by decide) (by decide) rfl (by decide),
   C4_manifest_amended.2 [("b.zst", "h2"), ("a.zst", "h1")]
      [("a.zst", "h1"), ("b.zst", "h2")] (by decide) (by decide)⟩

end RustZip
